import Mathlib

/-!
Shallow embedding of `src/path.c` (overlayfs-progs path manipulation).

Strings are modelled as `List Char`: a C string `char *s` is the list of its
characters up to (excluding) the terminating NUL.  Pointer advancement
(`s++`, `s += 2`) becomes dropping a prefix of the list; the tracked logical
lengths (`lenp`, `lenn`, `lend`) are the lengths of the corresponding lists.
-/

namespace PathC

/-- The loop `for (; s[0] == '.' && s[1] == '/'; s += 2);` from
`joinname` (path.c lines 73-74) and `basename2` (lines 142-143):
repeatedly strip a leading "./" pair. -/
def stripDotSlash : List Char → List Char
  | c1 :: c2 :: rest => if c1 = '.' ∧ c2 = '/' then stripDotSlash rest else c1 :: c2 :: rest
  | l => l

/-- The loop `for (; s[0] == '/'; s++);` (path.c line 75) and
`for (; *str == '/'; str++);` (line 157): strip all leading slashes. -/
def stripSlashes : List Char → List Char
  | c :: rest => if c = '/' then stripSlashes rest else c :: rest
  | [] => []

/-- Normalization of `joinname`'s `path` argument (path.c lines 64-67 and 74):
the exact string "." becomes empty, then leading "./" pairs are stripped. -/
def normPath (path : List Char) : List Char :=
  stripDotSlash (if path = ['.'] then [] else path)

/-- Normalization of `joinname`'s `name` argument (path.c lines 68-71, 73, 75):
the exact string "." becomes empty, then leading "./" pairs are stripped,
then all leading slashes are stripped. -/
def normName (name : List Char) : List Char :=
  stripSlashes (stripDotSlash (if name = ['.'] then [] else name))

/-- Output construction of `joinname` on the already-normalized parts
(path.c lines 77-99): "." when both parts are empty, otherwise the
concatenation with a single '/' inserted iff both parts are non-empty and
the path part does not already end in '/'. -/
def joinCore (p n : List Char) : List Char :=
  if p = [] ∧ n = [] then ['.']
  else if p ≠ [] ∧ n ≠ [] ∧ p.getLast? ≠ some '/' then p ++ '/' :: n
  else p ++ n

/-- Function `joinname` (path.c lines 56-103), success path: the contents of
the returned buffer up to the terminating NUL. -/
def joinname (path name : List Char) : List Char :=
  joinCore (normPath path) (normName name)

/-- The buffer size `len` computed by `joinname` (path.c lines 77-84):
normalized lengths plus one for the terminator, plus one more when both
parts are empty (the "." case) or when a separator slash is inserted. -/
def joinnameLen (path name : List Char) : Nat :=
  let p := normPath path
  let n := normName name
  if p.length = 0 ∧ n.length = 0 then p.length + n.length + 2
  else if 0 < p.length ∧ 0 < n.length ∧ p.getLast? ≠ some '/' then p.length + n.length + 2
  else p.length + n.length + 1

/-- Function `joinname` including its allocation outcome (path.c lines 86-88
and 101-102): `malloc` failure returns NULL (`none`); otherwise the filled
buffer. -/
def joinnameAlloc (allocOk : Bool) (path name : List Char) : Option (List Char) :=
  if allocOk then some (joinname path name) else none

/-- The `mismatch` exit of `basename2` (path.c lines 162-163), applied to the
"./"-stripped `path`: "." when it is empty, otherwise the stripped path
itself. -/
def mismatchResult (p : List Char) : List Char :=
  if p = [] then ['.'] else p

/-- Normalization of `basename2`'s `dir` argument (path.c lines 143-151):
leading "./" pairs stripped, the exact string "." treated as empty, and one
trailing '/' excluded from the comparison length. -/
def normDir (dir : List Char) : List Char :=
  let d := stripDotSlash dir
  let d := if d = ['.'] then [] else d
  if d ≠ [] ∧ d.getLast? = some '/' then d.dropLast else d

/-- Function `basename2` (path.c lines 136-164).  `path` is "./"-stripped,
`dir` normalized; when the normalized dir is non-empty and leads the
stripped path (`strncmp` over `lend` chars), the character right after the
matched part must be '/' or the end of the string, else mismatch; then the
slashes after the matched part are skipped and an empty remainder becomes
the string ".". -/
def basename2 (path dir : List Char) : List Char :=
  let p := stripDotSlash path
  let d := normDir dir
  if d ≠ [] ∧ d <+: p then
    let str := p.drop d.length
    if str ≠ [] ∧ str.head? ≠ some '/' then mismatchResult p
    else
      let str := stripSlashes str
      if str = [] then ['.'] else str
  else mismatchResult p

/-- The claim's hypothesis "dir is a genuine slash-delimited prefix of path"
taken at face value: `dir` is a non-empty prefix of `path` and the remainder
is empty or starts with '/'. -/
def slashDelimitedBase (dir path : List Char) : Prop :=
  dir ≠ [] ∧ dir <+: path ∧
    (path.drop dir.length = [] ∨ (path.drop dir.length).head? = some '/')

instance (dir path : List Char) : Decidable (slashDelimitedBase dir path) := by
  unfold slashDelimitedBase
  infer_instance

/-- Modelled from the spec's words for the round-trip claim: "path with the
run of slashes at the dir/remainder boundary collapsed to a single '/'".
When the remainder after `dir` is empty this is just `dir`; otherwise the
leading slash run of the remainder is replaced by one '/'. -/
def roundTripExpected (dir path : List Char) : List Char :=
  let rem := path.drop dir.length
  if rem = [] then dir else dir ++ '/' :: stripSlashes rem

/-! Helper lemmas about the stripping loops. -/

theorem stripDotSlash_suffix (l : List Char) : stripDotSlash l <:+ l := by
  induction l using stripDotSlash.induct with
  | case1 c1 c2 rest h ih =>
      rw [stripDotSlash, if_pos h]
      exact ih.trans ⟨[c1, c2], rfl⟩
  | case2 c1 c2 rest h =>
      rw [stripDotSlash, if_neg h]
  | case3 l h =>
      cases l with
      | nil => exact List.suffix_rfl
      | cons c rest =>
        cases rest with
        | nil => exact List.suffix_rfl
        | cons c2 r => exact absurd rfl (h c c2 r)

theorem stripDotSlash_eq_nil (l : List Char) (h : stripDotSlash l = []) :
    l = [] ∨ l.getLast? = some '/' := by
  induction l using stripDotSlash.induct with
  | case1 c1 c2 rest hc ih =>
      rw [stripDotSlash, if_pos hc] at h
      rcases ih h with h1 | h1
      · subst h1
        right
        rw [hc.2]
        rfl
      · right
        have hne : rest ≠ [] := by
          intro hr
          rw [hr] at h1
          exact Option.noConfusion h1
        rw [show c1 :: c2 :: rest = [c1, c2] ++ rest from rfl,
          List.getLast?_append_of_ne_nil _ hne]
        exact h1
  | case2 c1 c2 rest hc =>
      rw [stripDotSlash, if_neg hc] at h
      exact absurd h (List.cons_ne_nil _ _)
  | case3 l hl =>
      cases l with
      | nil => exact Or.inl rfl
      | cons c rest =>
        cases rest with
        | nil => exact absurd h (List.cons_ne_nil _ _)
        | cons c2 r => exact absurd rfl (hl c c2 r)

theorem stripDotSlash_of_head (l : List Char) (h : l.head? ≠ some '.') :
    stripDotSlash l = l := by
  cases l with
  | nil => rfl
  | cons c rest =>
    cases rest with
    | nil => rfl
    | cons c2 r =>
      rw [stripDotSlash, if_neg]
      intro hc
      exact h (by rw [show (c :: c2 :: r).head? = some c from rfl, hc.1])

theorem stripSlashes_suffix (l : List Char) : stripSlashes l <:+ l := by
  induction l with
  | nil => exact List.suffix_rfl
  | cons c rest ih =>
    rw [stripSlashes]
    by_cases hc : c = '/'
    · rw [if_pos hc]
      exact ih.trans (List.suffix_cons c rest)
    · rw [if_neg hc]

theorem stripSlashes_head (l : List Char) : (stripSlashes l).head? ≠ some '/' := by
  induction l with
  | nil => intro h; exact Option.noConfusion h
  | cons c rest ih =>
    rw [stripSlashes]
    by_cases hc : c = '/'
    · rw [if_pos hc]
      exact ih
    · rw [if_neg hc]
      intro h
      exact hc (Option.some.inj h)

theorem stripSlashes_of_head (l : List Char) (h : l.head? ≠ some '/') :
    stripSlashes l = l := by
  cases l with
  | nil => rfl
  | cons c rest =>
    rw [stripSlashes, if_neg]
    intro hc
    exact h (by rw [show (c :: rest).head? = some c from rfl, hc])

theorem stripSlashes_replicate (k : Nat) (rest : List Char) :
    stripSlashes (List.replicate k '/' ++ rest) = stripSlashes rest := by
  induction k with
  | zero => rfl
  | succ n ih =>
    rw [List.replicate_succ, List.cons_append, stripSlashes, if_pos rfl]
    exact ih

theorem suffix_getLast (l1 l2 : List Char) (h : l1 <:+ l2) (hne : l1 ≠ []) :
    l1.getLast? = l2.getLast? := by
  obtain ⟨t, ht⟩ := h
  rw [← ht, List.getLast?_append_of_ne_nil _ hne]

/-! Evaluation lemmas for the normalization steps and for the branches of
`joinCore` and `basename2`. -/

theorem normPath_eq_self (p : List Char) (h1 : stripDotSlash p = p) (h2 : p ≠ ['.']) :
    normPath p = p := by
  rw [normPath, if_neg h2, h1]

theorem normName_eq_self (n : List Char) (h1 : stripDotSlash n = n) (h2 : n ≠ ['.'])
    (h3 : n.head? ≠ some '/') : normName n = n := by
  rw [normName, if_neg h2, h1, stripSlashes_of_head n h3]

theorem normDir_eval (dir : List Char) (h2 : stripDotSlash dir ≠ ['.'])
    (h3 : (stripDotSlash dir).getLast? ≠ some '/') : normDir dir = stripDotSlash dir := by
  simp only [normDir, if_neg h2]
  rw [if_neg]
  intro hc
  exact h3 hc.2

theorem normDir_of_dot (dir : List Char) (h : stripDotSlash dir = ['.']) :
    normDir dir = [] := by
  simp only [normDir, h]
  simp

theorem joinCore_nil_right (p : List Char) (h : p ≠ []) : joinCore p [] = p := by
  unfold joinCore
  rw [if_neg (by simp [h]), if_neg (by simp)]
  simp

theorem joinCore_nil_left (n : List Char) (h : n ≠ []) : joinCore [] n = n := by
  unfold joinCore
  rw [if_neg (by simp [h]), if_neg (by simp)]
  simp

theorem joinCore_sep (p n : List Char) (hp : p ≠ []) (hn : n ≠ [])
    (hl : p.getLast? ≠ some '/') : joinCore p n = p ++ '/' :: n := by
  unfold joinCore
  rw [if_neg (by simp [hp]), if_pos ⟨hp, hn, hl⟩]

theorem basename2_eval_no_base (path dir : List Char)
    (h : ¬(normDir dir ≠ [] ∧ normDir dir <+: stripDotSlash path)) :
    basename2 path dir = mismatchResult (stripDotSlash path) := by
  simp only [basename2]
  rw [if_neg h]

theorem basename2_eval_false_pos (path dir : List Char)
    (hd : normDir dir ≠ []) (hpre : normDir dir <+: stripDotSlash path)
    (hrem : (stripDotSlash path).drop (normDir dir).length ≠ [])
    (hhead : ((stripDotSlash path).drop (normDir dir).length).head? ≠ some '/') :
    basename2 path dir = mismatchResult (stripDotSlash path) := by
  simp only [basename2]
  rw [if_pos ⟨hd, hpre⟩, if_pos ⟨hrem, hhead⟩]

theorem basename2_eval_match (path dir : List Char)
    (hd : normDir dir ≠ []) (hpre : normDir dir <+: stripDotSlash path)
    (hok : (stripDotSlash path).drop (normDir dir).length = [] ∨
      ((stripDotSlash path).drop (normDir dir).length).head? = some '/') :
    basename2 path dir =
      (if stripSlashes ((stripDotSlash path).drop (normDir dir).length) = [] then ['.']
       else stripSlashes ((stripDotSlash path).drop (normDir dir).length)) := by
  simp only [basename2]
  rw [if_pos ⟨hd, hpre⟩, if_neg]
  rcases hok with h | h
  · intro hc
    exact hc.1 h
  · intro hc
    exact hc.2 h

/-! Claim theorems. -/

/-- C2: joinname reproduces the authoritative worked table of spec section 4.1
exactly on all eight rows: ("/usr","lib") gives "/usr/lib", ("/usr",".") gives
"/usr", ("/usr","..") gives "/usr/..", (".","lib") gives "lib", ("..","lib")
gives "../lib", (".",".") gives ".", ("..","..") gives "../..", and ("","")
gives ".". -/
theorem joinname_table :
    joinname ['/', 'u', 's', 'r'] ['l', 'i', 'b'] = ['/', 'u', 's', 'r', '/', 'l', 'i', 'b'] ∧
    joinname ['/', 'u', 's', 'r'] ['.'] = ['/', 'u', 's', 'r'] ∧
    joinname ['/', 'u', 's', 'r'] ['.', '.'] = ['/', 'u', 's', 'r', '/', '.', '.'] ∧
    joinname ['.'] ['l', 'i', 'b'] = ['l', 'i', 'b'] ∧
    joinname ['.', '.'] ['l', 'i', 'b'] = ['.', '.', '/', 'l', 'i', 'b'] ∧
    joinname ['.'] ['.'] = ['.'] ∧
    joinname ['.', '.'] ['.', '.'] = ['.', '.', '/', '.', '.'] ∧
    joinname [] [] = ['.'] := by
  decide

/-- C7: empty-path fallback: for every dir, basename2("", dir) returns the
string ".". -/
theorem basename2_empty_path (dir : List Char) : basename2 [] dir = ['.'] := by
  have h : ¬(normDir dir ≠ [] ∧ normDir dir <+: stripDotSlash []) := by
    rintro ⟨h1, h2⟩
    exact h1 (List.prefix_nil.mp h2)
  rw [basename2_eval_no_base [] dir h]
  rfl

/-- C6: self-base identity: for every non-empty string p that does not end
with '/', basename2(p, p) is the string ".". -/
theorem basename2_self_base (p : List Char) (h1 : p ≠ []) (h2 : p.getLast? ≠ some '/') :
    basename2 p p = ['.'] := by
  have hPne : stripDotSlash p ≠ [] := by
    intro h
    rcases stripDotSlash_eq_nil p h with h' | h'
    · exact h1 h'
    · exact h2 h'
  have hlast : (stripDotSlash p).getLast? ≠ some '/' := by
    rw [suffix_getLast (stripDotSlash p) p (stripDotSlash_suffix p) hPne]
    exact h2
  by_cases hdot : stripDotSlash p = ['.']
  · rw [basename2_eval_no_base p p (by rw [normDir_of_dot p hdot]; simp), hdot]
    rfl
  · have hnd : normDir p = stripDotSlash p := normDir_eval p hdot hlast
    rw [basename2_eval_match p p (by rw [hnd]; exact hPne) (by rw [hnd])
      (by rw [hnd, List.drop_length]; exact Or.inl rfl)]
    rw [hnd, List.drop_length]
    rfl

/-- C6 witness: the self-base identity applied at p = "/usr". -/
theorem basename2_self_base_witness :
    ['/', 'u', 's', 'r'] ≠ ([] : List Char) ∧
    (['/', 'u', 's', 'r'] : List Char).getLast? ≠ some '/' ∧
    basename2 ['/', 'u', 's', 'r'] ['/', 'u', 's', 'r'] = ['.'] :=
  ⟨by decide, by decide, basename2_self_base ['/', 'u', 's', 'r'] (by decide) (by decide)⟩

/-- C5: false-positive prefix rejection: when the normalized dir matches the
first characters of the stripped path but the character immediately after the
matched part is neither '/' nor the end of the string, basename2 falls
through to the mismatch case. -/
theorem basename2_false_positive (path dir : List Char) (c : Char)
    (hd : normDir dir ≠ []) (hpre : normDir dir <+: stripDotSlash path)
    (hc : ((stripDotSlash path).drop (normDir dir).length).head? = some c)
    (hslash : c ≠ '/') :
    basename2 path dir = mismatchResult (stripDotSlash path) := by
  apply basename2_eval_false_pos path dir hd hpre
  · intro h
    rw [h] at hc
    exact Option.noConfusion hc
  · rw [hc]
    intro h
    exact hslash (Option.some.inj h)

/-- C5 witness: basename2("/usress", "/usr") falls through to mismatch and
returns "/usress". -/
theorem basename2_false_positive_witness :
    normDir ['/', 'u', 's', 'r'] ≠ [] ∧
    normDir ['/', 'u', 's', 'r'] <+: stripDotSlash ['/', 'u', 's', 'r', 'e', 's', 's'] ∧
    basename2 ['/', 'u', 's', 'r', 'e', 's', 's'] ['/', 'u', 's', 'r'] =
      ['/', 'u', 's', 'r', 'e', 's', 's'] :=
  ⟨by decide, by decide,
    (basename2_false_positive ['/', 'u', 's', 'r', 'e', 's', 's'] ['/', 'u', 's', 'r'] 'e'
      (by decide) (by decide) (by decide) (by decide)).trans (by decide)⟩

/-- C4 counterexample: the claim says that in the mismatch case the returned
view is the original path from before the "./"-stripping step, so
basename2("./foo", "/x") would be "./foo"; the code strips first and returns
"foo". -/
theorem basename2_mismatch_counterexample :
    basename2 ['.', '/', 'f', 'o', 'o'] ['/', 'x'] = ['f', 'o', 'o'] ∧
    basename2 ['.', '/', 'f', 'o', 'o'] ['/', 'x'] ≠ ['.', '/', 'f', 'o', 'o'] := by
  decide

/-- C4 (amended): in basename2's mismatch case (dir empty after
normalization, or not a leading part of the stripped path, or a
false-positive match) the returned view is the "./"-stripped path — or "."
when that is empty — not the pre-stripping original. -/
theorem basename2_mismatch_stripped (path dir : List Char)
    (h : ¬(normDir dir ≠ [] ∧ normDir dir <+: stripDotSlash path) ∨
      ((stripDotSlash path).drop (normDir dir).length ≠ [] ∧
       ((stripDotSlash path).drop (normDir dir).length).head? ≠ some '/')) :
    basename2 path dir = mismatchResult (stripDotSlash path) := by
  rcases h with h | h
  · exact basename2_eval_no_base path dir h
  · by_cases hb : normDir dir ≠ [] ∧ normDir dir <+: stripDotSlash path
    · exact basename2_eval_false_pos path dir hb.1 hb.2 h.1 h.2
    · exact basename2_eval_no_base path dir hb

/-- C4 witness: for path = "./foo" and the non-matching dir = "/x" the result
is the stripped "foo". -/
theorem basename2_mismatch_stripped_witness :
    (¬(normDir ['/', 'x'] ≠ [] ∧
        normDir ['/', 'x'] <+: stripDotSlash ['.', '/', 'f', 'o', 'o']) ∨
      ((stripDotSlash ['.', '/', 'f', 'o', 'o']).drop (normDir ['/', 'x']).length ≠ [] ∧
       ((stripDotSlash ['.', '/', 'f', 'o', 'o']).drop
         (normDir ['/', 'x']).length).head? ≠ some '/')) ∧
    basename2 ['.', '/', 'f', 'o', 'o'] ['/', 'x'] = ['f', 'o', 'o'] :=
  ⟨Or.inl (by decide),
    (basename2_mismatch_stripped ['.', '/', 'f', 'o', 'o'] ['/', 'x']
      (Or.inl (by decide))).trans (by decide)⟩

/-- C3 counterexample: the claim quantifies over every non-empty name not
starting with '/', but name = "." is normalized away: joinname("/usr", ".")
is "/usr", not "/usr" + "/" + ".". -/
theorem join_separator_counterexample :
    ['/', 'u', 's', 'r'] ≠ ([] : List Char) ∧
    (['/', 'u', 's', 'r'] : List Char).getLast? ≠ some '/' ∧
    ['.'] ≠ ([] : List Char) ∧
    (['.'] : List Char).head? ≠ some '/' ∧
    joinname ['/', 'u', 's', 'r'] ['.'] ≠ ['/', 'u', 's', 'r'] ++ '/' :: ['.'] := by
  decide

/-- C3 (amended): for non-empty path not ending in '/' and non-empty name
not starting with '/', where additionally neither input is the string "."
nor begins with "./" (the normalization steps leave them unchanged),
joinname(path, name) is the concatenation path + "/" + name. -/
theorem join_separator_insertion (path name : List Char)
    (hp0 : path ≠ []) (hp1 : path.getLast? ≠ some '/') (hp2 : path ≠ ['.'])
    (hp3 : stripDotSlash path = path)
    (hn0 : name ≠ []) (hn1 : name.head? ≠ some '/') (hn2 : name ≠ ['.'])
    (hn3 : stripDotSlash name = name) :
    joinname path name = path ++ '/' :: name := by
  rw [joinname, normPath_eq_self path hp3 hp2, normName_eq_self name hn3 hn2 hn1,
    joinCore_sep path name hp0 hn0 hp1]

/-- C3 witness: separator insertion applied at path = "/usr", name = "lib". -/
theorem join_separator_insertion_witness :
    ['/', 'u', 's', 'r'] ≠ ([] : List Char) ∧
    (['/', 'u', 's', 'r'] : List Char).getLast? ≠ some '/' ∧
    ['l', 'i', 'b'] ≠ ([] : List Char) ∧
    (['l', 'i', 'b'] : List Char).head? ≠ some '/' ∧
    joinname ['/', 'u', 's', 'r'] ['l', 'i', 'b'] =
      ['/', 'u', 's', 'r'] ++ '/' :: ['l', 'i', 'b'] :=
  ⟨by decide, by decide, by decide, by decide,
    join_separator_insertion ['/', 'u', 's', 'r'] ['l', 'i', 'b'] (by decide) (by decide)
      (by decide) (by decide) (by decide) (by decide) (by decide) (by decide)⟩

/-- C9: with an empty base path, joinname still strips every leading '/'
from name: for name made of one or more slashes followed by a non-empty
remainder that does not start with '/', the result is exactly that
remainder, and it never begins with '/'. -/
theorem joinname_nil_path_strips (k : Nat) (rest : List Char)
    (hk : 1 ≤ k) (h0 : rest ≠ []) (h1 : rest.head? ≠ some '/') :
    joinname [] (List.replicate k '/' ++ rest) = rest ∧
    (joinname [] (List.replicate k '/' ++ rest)).head? ≠ some '/' := by
  have hhead : (List.replicate k '/' ++ rest).head? = some '/' := by
    cases k with
    | zero => exact absurd hk (by decide)
    | succ n => rw [List.replicate_succ, List.cons_append]; rfl
  have hname : List.replicate k '/' ++ rest ≠ ['.'] := by
    intro h
    rw [h] at hhead
    exact absurd hhead (by decide)
  have hn : normName (List.replicate k '/' ++ rest) = rest := by
    rw [normName, if_neg hname, stripDotSlash_of_head _ (by rw [hhead]; decide),
      stripSlashes_replicate, stripSlashes_of_head rest h1]
  rw [joinname, hn, show normPath [] = [] from rfl, joinCore_nil_left rest h0]
  exact ⟨rfl, h1⟩

/-- C9 witness: joinname("", "/usr") = "usr", which does not begin with '/'. -/
theorem joinname_nil_path_strips_witness :
    1 ≤ 1 ∧ ['u', 's', 'r'] ≠ ([] : List Char) ∧
    (['u', 's', 'r'] : List Char).head? ≠ some '/' ∧
    joinname [] (List.replicate 1 '/' ++ ['u', 's', 'r']) = ['u', 's', 'r'] :=
  ⟨by decide, by decide, by decide,
    (joinname_nil_path_strips 1 ['u', 's', 'r'] (by decide) (by decide) (by decide)).1⟩

/-- C10: right-identity with a trailing slash: when the normalized path is
non-empty and ends with '/', joinname(path, ".") returns the normalized path
with the trailing slash preserved. -/
theorem joinname_dot_trailing_slash (path : List Char)
    (h0 : normPath path ≠ []) (h1 : (normPath path).getLast? = some '/') :
    joinname path ['.'] = normPath path ∧
    (joinname path ['.']).getLast? = some '/' := by
  have h : joinname path ['.'] = normPath path := by
    rw [joinname, show normName ['.'] = [] from rfl, joinCore_nil_right _ h0]
  exact ⟨h, by rw [h]; exact h1⟩

/-- C10 witness: joinname("/usr/", ".") = "/usr/", keeping the trailing
slash, not "/usr". -/
theorem joinname_dot_trailing_slash_witness :
    normPath ['/', 'u', 's', 'r', '/'] ≠ [] ∧
    (normPath ['/', 'u', 's', 'r', '/']).getLast? = some '/' ∧
    joinname ['/', 'u', 's', 'r', '/'] ['.'] = ['/', 'u', 's', 'r', '/'] :=
  ⟨by decide, by decide,
    ((joinname_dot_trailing_slash ['/', 'u', 's', 'r', '/'] (by decide)
      (by decide)).1).trans (by decide)⟩

/-- C1 counterexample: dir = "/usr" is a genuine slash-delimited leading part
of path = "/usr/./lib", but the round trip gives "/usr/lib" — the "./" after
the boundary is also normalized away — while the path with only the boundary
slash run collapsed is "/usr/./lib". -/
theorem roundTrip_counterexample :
    slashDelimitedBase ['/', 'u', 's', 'r'] ['/', 'u', 's', 'r', '/', '.', '/', 'l', 'i', 'b'] ∧
    joinname ['/', 'u', 's', 'r']
        (basename2 ['/', 'u', 's', 'r', '/', '.', '/', 'l', 'i', 'b'] ['/', 'u', 's', 'r']) ≠
      roundTripExpected ['/', 'u', 's', 'r']
        ['/', 'u', 's', 'r', '/', '.', '/', 'l', 'i', 'b'] := by
  decide

/-- C1 (amended): for dir a genuine slash-delimited leading part of path,
where additionally dir is in normal form (not ".", no leading "./", no
trailing '/'), path has no leading "./", the part after the boundary is not
made of slashes only, and the remainder after the boundary slashes is not
exactly "." and does not begin with "./", the recombination
joinname(dir, basename2(path, dir)) reproduces path with the slash run at
the boundary collapsed to a single '/'. -/
theorem joinname_basename2_roundTrip (dir path : List Char)
    (hgen : slashDelimitedBase dir path)
    (hd1 : stripDotSlash dir = dir) (hd2 : dir ≠ ['.']) (hd3 : dir.getLast? ≠ some '/')
    (hp1 : stripDotSlash path = path)
    (hrem : path.drop dir.length ≠ [] → stripSlashes (path.drop dir.length) ≠ [])
    (hdot1 : stripSlashes (path.drop dir.length) ≠ ['.'])
    (hdot2 : stripDotSlash (stripSlashes (path.drop dir.length)) =
      stripSlashes (path.drop dir.length)) :
    joinname dir (basename2 path dir) = roundTripExpected dir path := by
  obtain ⟨hd0, hpre, hbound⟩ := hgen
  have hnd : normDir dir = dir := by
    have h2 : stripDotSlash dir ≠ ['.'] := by rw [hd1]; exact hd2
    have h3 : (stripDotSlash dir).getLast? ≠ some '/' := by rw [hd1]; exact hd3
    rw [normDir_eval dir h2 h3, hd1]
  have hb2 := basename2_eval_match path dir (by rw [hnd]; exact hd0)
    (by rw [hnd, hp1]; exact hpre) (by rw [hnd, hp1]; exact hbound)
  rw [hnd, hp1] at hb2
  by_cases hr : path.drop dir.length = []
  · rw [hb2, hr, if_pos (show stripSlashes [] = [] from rfl)]
    rw [joinname, show normName ['.'] = [] from rfl,
      normPath_eq_self dir hd1 hd2, joinCore_nil_right dir hd0]
    simp only [roundTripExpected]
    rw [if_pos hr]
  · have hrest : stripSlashes (path.drop dir.length) ≠ [] := hrem hr
    rw [hb2, if_neg hrest]
    have hsh : (stripSlashes (path.drop dir.length)).head? ≠ some '/' := stripSlashes_head _
    rw [joinname, normPath_eq_self dir hd1 hd2,
      normName_eq_self _ hdot2 hdot1 hsh,
      joinCore_sep dir _ hd0 hrest hd3]
    simp only [roundTripExpected]
    rw [if_neg hr]

/-- C1 witness: the amended round trip applied at dir = "/usr" and
path = "/usr//lib": basename2 gives "lib" and joining gives "/usr/lib", the
path with the boundary slash run "//" collapsed to "/". -/
theorem joinname_basename2_roundTrip_witness :
    slashDelimitedBase ['/', 'u', 's', 'r'] ['/', 'u', 's', 'r', '/', '/', 'l', 'i', 'b'] ∧
    joinname ['/', 'u', 's', 'r']
        (basename2 ['/', 'u', 's', 'r', '/', '/', 'l', 'i', 'b'] ['/', 'u', 's', 'r']) =
      roundTripExpected ['/', 'u', 's', 'r'] ['/', 'u', 's', 'r', '/', '/', 'l', 'i', 'b'] :=
  ⟨by decide,
    joinname_basename2_roundTrip ['/', 'u', 's', 'r']
      ['/', 'u', 's', 'r', '/', '/', 'l', 'i', 'b']
      (by decide) (by decide) (by decide) (by decide) (by decide) (by decide) (by decide)
      (by decide)⟩

/-! Length and membership lemmas supporting the allocation model. -/

theorem joinCore_length (p n : List Char) :
    (joinCore p n).length + 1 =
      (if p.length = 0 ∧ n.length = 0 then p.length + n.length + 2
       else if 0 < p.length ∧ 0 < n.length ∧ p.getLast? ≠ some '/' then p.length + n.length + 2
       else p.length + n.length + 1) := by
  unfold joinCore
  by_cases h1 : p = [] ∧ n = []
  · rw [if_pos h1, if_pos (by simp [h1.1, h1.2])]
    simp [h1.1, h1.2]
  · by_cases h2 : p ≠ [] ∧ n ≠ [] ∧ p.getLast? ≠ some '/'
    · rw [if_neg h1, if_pos h2,
        if_neg (by rw [List.length_eq_zero, List.length_eq_zero]; exact h1),
        if_pos ⟨List.length_pos.mpr h2.1, List.length_pos.mpr h2.2.1, h2.2.2⟩]
      simp only [List.length_append, List.length_cons]
      omega
    · rw [if_neg h1, if_neg h2,
        if_neg (by rw [List.length_eq_zero, List.length_eq_zero]; exact h1),
        if_neg (by rw [List.length_pos, List.length_pos]; exact h2)]
      simp only [List.length_append]

theorem mem_joinCore (c : Char) (p n : List Char) (hc : c ∈ joinCore p n) :
    c ∈ p ∨ c ∈ n ∨ c = '.' ∨ c = '/' := by
  unfold joinCore at hc
  by_cases h1 : p = [] ∧ n = []
  · rw [if_pos h1] at hc
    right; right; left
    simpa using hc
  · rw [if_neg h1] at hc
    by_cases h2 : p ≠ [] ∧ n ≠ [] ∧ p.getLast? ≠ some '/'
    · rw [if_pos h2] at hc
      rcases List.mem_append.mp hc with h | h
      · exact Or.inl h
      · rcases List.mem_cons.mp h with h | h
        · exact Or.inr (Or.inr (Or.inr h))
        · exact Or.inr (Or.inl h)
    · rw [if_neg h2] at hc
      rcases List.mem_append.mp hc with h | h
      · exact Or.inl h
      · exact Or.inr (Or.inl h)

theorem mem_normPath (c : Char) (path : List Char) (h : c ∈ normPath path) : c ∈ path := by
  unfold normPath at h
  have h2 := (stripDotSlash_suffix _).subset h
  by_cases hd : path = ['.']
  · rw [if_pos hd] at h2
    exact absurd h2 (List.not_mem_nil c)
  · rwa [if_neg hd] at h2

theorem mem_normName (c : Char) (name : List Char) (h : c ∈ normName name) : c ∈ name := by
  unfold normName at h
  have h2 := (stripDotSlash_suffix _).subset ((stripSlashes_suffix _).subset h)
  by_cases hd : name = ['.']
  · rw [if_pos hd] at h2
    exact absurd h2 (List.not_mem_nil c)
  · rwa [if_neg hd] at h2

/-- C8: allocation failure is the only failure mode of joinname and yields
NULL; on success the result is a non-null, exactly-sized, null-terminated
string: its length plus the terminator equals the computed buffer length,
and it contains no NUL byte when the inputs contain none. -/
theorem joinname_error_model (allocOk : Bool) (path name : List Char) :
    (joinnameAlloc allocOk path name = none ↔ allocOk = false) ∧
    (allocOk = true → joinnameAlloc allocOk path name = some (joinname path name)) ∧
    (joinname path name).length + 1 = joinnameLen path name ∧
    (Char.ofNat 0 ∉ path → Char.ofNat 0 ∉ name → Char.ofNat 0 ∉ joinname path name) := by
  refine ⟨?_, ?_, ?_, ?_⟩
  · cases allocOk <;> simp [joinnameAlloc]
  · intro h
    rw [h]
    rfl
  · rw [joinname]
    simp only [joinnameLen]
    exact joinCore_length (normPath path) (normName name)
  · intro hp hn hmem
    rw [joinname] at hmem
    rcases mem_joinCore _ _ _ hmem with h | h | h | h
    · exact hp (mem_normPath _ _ h)
    · exact hn (mem_normName _ _ h)
    · exact absurd h (by decide)
    · exact absurd h (by decide)

/-- C8 witness: the error model at path = "/usr", name = "lib": a failed
allocation gives none, and the successful result holds no NUL byte. -/
theorem joinname_error_model_witness :
    Char.ofNat 0 ∉ ['/', 'u', 's', 'r'] ∧ Char.ofNat 0 ∉ ['l', 'i', 'b'] ∧
    (joinnameAlloc false ['/', 'u', 's', 'r'] ['l', 'i', 'b'] = none ↔ false = false) ∧
    Char.ofNat 0 ∉ joinname ['/', 'u', 's', 'r'] ['l', 'i', 'b'] :=
  ⟨by decide, by decide, (joinname_error_model false ['/', 'u', 's', 'r'] ['l', 'i', 'b']).1,
    (joinname_error_model true ['/', 'u', 's', 'r'] ['l', 'i', 'b']).2.2.2
      (by decide) (by decide)⟩

end PathC
